import Mathlib

/-!
Shallow embedding of the effective-sample-size estimator from
`assets/posts/ESS/rwmh.py`, over exact rational arithmetic.

A chain matrix of shape `(m, n)` is modelled as a function
`x : ℕ → ℕ → ℚ` together with the explicit dimensions `m` (chains, rows)
and `n` (iterations, columns); only the entries `x j i` with `j < m`,
`i < n` are ever read.  NumPy's float arithmetic is embedded as exact
arithmetic on `ℚ`; Python's `int(...)` cast is truncation toward zero.
-/

namespace Rwmh

/-- Mean of row `j` of the chain matrix: `np.mean(x, axis=1)` at row `j`. -/
def rowMean (x : ℕ → ℕ → ℚ) (n j : ℕ) : ℚ :=
  (∑ i in Finset.range n, x j i) / n

/-- Grand mean of all entries: `np.mean(x)`. -/
def grandMean (x : ℕ → ℕ → ℚ) (m n : ℕ) : ℚ :=
  (∑ j in Finset.range m, ∑ i in Finset.range n, x j i) / ((m : ℚ) * n)

/-- Vectorised marginal-posterior-variance estimator `my_gelman_rubin` from
`rwmh.py` lines 35-48. -/
def my_gelman_rubin (x : ℕ → ℕ → ℚ) (m n : ℕ) : ℚ :=
  let B_over_n : ℚ :=
    (∑ j in Finset.range m, (rowMean x n j - grandMean x m n) ^ 2) / ((m : ℚ) - 1)
  let W : ℚ :=
    (∑ j in Finset.range m, ∑ i in Finset.range n, (x j i - rowMean x n j) ^ 2) /
      ((m : ℚ) * ((n : ℚ) - 1))
  W * ((n : ℚ) - 1) / n + B_over_n

/-- Nested-loop marginal-posterior-variance estimator `gelman_rubin` from
`rwmh.py` lines 74-87; the within-chain sum is the Python list comprehension
`np.sum([(x[i] - xbar) ** 2 for i, xbar in enumerate(np.mean(x, 1))])`,
embedded as a `List.map` over `List.range m`. -/
def gelman_rubin (x : ℕ → ℕ → ℚ) (m n : ℕ) : ℚ :=
  let B_over_n : ℚ :=
    (∑ j in Finset.range m, (rowMean x n j - grandMean x m n) ^ 2) / ((m : ℚ) - 1)
  let W : ℚ :=
    (((List.range m).map
        (fun j => ∑ i in Finset.range n, (x j i - rowMean x n j) ^ 2)).sum) /
      ((m : ℚ) * ((n : ℚ) - 1))
  W * ((n : ℚ) - 1) / n + B_over_n

/-- Vectorised variogram from `my_ESS` (line 16):
`((x[:, t:] - x[:, :(n - t)])**2).sum() / (m * (n - t))`. -/
def my_variogram (x : ℕ → ℕ → ℚ) (m n t : ℕ) : ℚ :=
  (∑ j in Finset.range m, ∑ i in Finset.range (n - t), (x j (i + t) - x j i) ^ 2) /
    ((m : ℚ) * ((n : ℚ) - t))

/-- Nested-loop variogram from `ESS` (lines 54-55):
`sum(sum((x[j][i] - x[j][i-t])**2 for i in range(t, n)) for j in range(m)) / (m * (n - t))`. -/
def loop_variogram (x : ℕ → ℕ → ℚ) (m n t : ℕ) : ℚ :=
  (∑ j in Finset.range m, ∑ i in Finset.Ico t n, (x j i - x j (i - t)) ^ 2) /
    ((m : ℚ) * ((n : ℚ) - t))

/-- One autocorrelation estimate for the vectorised implementation
(line 26 of `rwmh.py`): `rho[t] = 1 - variogram(t) / (2 * post_var)`. -/
def my_rhoAt (x : ℕ → ℕ → ℚ) (m n t : ℕ) : ℚ :=
  1 - my_variogram x m n t / (2 * my_gelman_rubin x m n)

/-- One autocorrelation estimate for the nested-loop implementation
(line 65 of `rwmh.py`). -/
def pymc_rhoAt (x : ℕ → ℕ → ℚ) (m n t : ℕ) : ℚ :=
  1 - loop_variogram x m n t / (2 * gelman_rubin x m n)

/-- The shared autocorrelation scan of both ESS implementations
(`rwmh.py` lines 20-31 and 59-70), parameterised by the per-lag estimate
`rhoAt`.  The state is the array `rho` (initialised to ones), the lag
counter `t` and the flag `negative_autocorr`; the loop runs while the flag
is unset and `t < n`, writes `rho[t]`, re-evaluates the flag at even `t`
from `sum(rho[t-1:t+1]) < 0`, and increments `t`.  The `fuel` argument
only makes the recursion structural; any `fuel ≥ n - t` yields the exact
behaviour of the Python `while` loop (see `essLoop_false_eq`). -/
def essLoop (rhoAt : ℕ → ℚ) (n : ℕ) : ℕ → (ℕ → ℚ) → ℕ → Bool → (ℕ → ℚ) × ℕ
  | fuel + 1, rho, t, neg =>
    if neg = false ∧ t < n then
      let rho' := Function.update rho t (rhoAt t)
      let neg' : Bool :=
        if t % 2 = 0 then (if rho' (t - 1) + rho' t < 0 then true else false) else neg
      essLoop rhoAt n fuel rho' (t + 1) neg'
    else (rho, t)
  | 0, rho, t, _ => (rho, t)

/-- Final state `(rho, t)` of the scan in the vectorised `my_ESS`; the loop
starts at `t = 1` and makes at most `n - 1` iterations, so fuel `n` is enough. -/
def my_ESS_state (x : ℕ → ℕ → ℚ) (m n : ℕ) : (ℕ → ℚ) × ℕ :=
  essLoop (my_rhoAt x m n) n n (fun _ => 1) 1 false

/-- Final state `(rho, t)` of the scan in the nested-loop `ESS`. -/
def ESS_state (x : ℕ → ℕ → ℚ) (m n : ℕ) : (ℕ → ℚ) × ℕ :=
  essLoop (pymc_rhoAt x m n) n n (fun _ => 1) 1 false

/-- Python's `int(...)` cast on a float: truncation toward zero. -/
def truncInt (q : ℚ) : ℤ :=
  if 0 ≤ q then ⌊q⌋ else ⌈q⌉

/-- Vectorised effective sample size `my_ESS` (line 33 of `rwmh.py`):
`int(m * n / (1 + 2 * rho[1:t].sum()))` at the final loop state. -/
def my_ESS (x : ℕ → ℕ → ℚ) (m n : ℕ) : ℤ :=
  truncInt (((m : ℚ) * n) /
    (1 + 2 * ∑ k in Finset.Ico 1 (my_ESS_state x m n).2, (my_ESS_state x m n).1 k))

/-- Nested-loop effective sample size `ESS` (line 72 of `rwmh.py`). -/
def ESS (x : ℕ → ℕ → ℚ) (m n : ℕ) : ℤ :=
  truncInt (((m : ℚ) * n) /
    (1 + 2 * ∑ k in Finset.Ico 1 (ESS_state x m n).2, (ESS_state x m n).1 k))

/-- Whether the stop condition of the scan holds at lag `t`: `t` is even and
the smoothed pair of autocorrelation estimates has negative sum. -/
def fires (rhoAt : ℕ → ℚ) (t : ℕ) : Bool :=
  if t % 2 = 0 ∧ rhoAt (t - 1) + rhoAt t < 0 then true else false

/-- Specification-level exit value of the scan's lag counter, started at `t`:
the counter moves past each lag and stops one past the first lag where the
stop condition holds, or at `n` when it exhausts the range. -/
def scanStop (rhoAt : ℕ → ℚ) (n t : ℕ) : ℕ :=
  if h : t < n then
    (if fires rhoAt t then t + 1 else scanStop rhoAt n (t + 1))
  else t
termination_by n - t
decreasing_by exact Nat.sub_lt_sub_left h (Nat.lt_succ_self t)

/-! ### Helper lemmas about the scan loop -/

/-- A set flag makes the loop exit immediately with the current state. -/
lemma essLoop_stop (rhoAt : ℕ → ℚ) (n fuel t : ℕ) (rho : ℕ → ℚ) :
    essLoop rhoAt n fuel rho t true = (rho, t) := by
  cases fuel <;> simp [essLoop]

/-- The lag counter never moves backwards: `scanStop` is at least its start. -/
lemma le_scanStop (rhoAt : ℕ → ℚ) (n : ℕ) :
    ∀ d t, n - t ≤ d → t ≤ scanStop rhoAt n t := by
  intro d
  induction d with
  | zero =>
    intro t h
    rw [scanStop]
    have hnt : ¬ t < n := by omega
    simp [hnt]
  | succ d ih =>
    intro t h
    rw [scanStop]
    by_cases htn : t < n
    · by_cases hf : fires rhoAt t = true
      · simp [htn, hf]
      · have := ih (t + 1) (by omega)
        simp only [htn, dite_true]
        rw [if_neg hf]
        omega
    · simp [htn]

/-- The scan never moves the counter past `n` when it starts at or below `n`. -/
lemma scanStop_le (rhoAt : ℕ → ℚ) (n : ℕ) :
    ∀ d t, n - t ≤ d → t ≤ n → scanStop rhoAt n t ≤ n := by
  intro d
  induction d with
  | zero =>
    intro t h htn
    rw [scanStop]
    have hnt : ¬ t < n := by omega
    simp [hnt]
    omega
  | succ d ih =>
    intro t h htn
    rw [scanStop]
    by_cases hlt : t < n
    · by_cases hf : fires rhoAt t = true
      · simp [hlt, hf]
        omega
      · have := ih (t + 1) (by omega) (by omega)
        simp only [hlt, dite_true]
        rw [if_neg hf]
        exact this
    · simp [hlt]
      omega

/-- Exact behaviour of the Python `while` loop: started with an unset flag at
lag `t` on an array that already carries the estimates for lags `1, …, t-1`,
and with enough fuel, the loop writes `rhoAt k` at every lag
`k ∈ [t, scanStop)` and exits with counter `scanStop`. -/
lemma essLoop_false_eq (rhoAt : ℕ → ℚ) (n : ℕ) :
    ∀ (fuel t : ℕ) (rho : ℕ → ℚ), n - t ≤ fuel → 1 ≤ t →
      (∀ k, 1 ≤ k → k < t → rho k = rhoAt k) →
      essLoop rhoAt n fuel rho t false =
        ((fun k => if t ≤ k ∧ k < scanStop rhoAt n t then rhoAt k else rho k),
          scanStop rhoAt n t) := by
  intro fuel
  induction fuel with
  | zero =>
    intro t rho hfuel ht hprev
    have hnt : ¬ t < n := by omega
    rw [scanStop]
    simp only [hnt, dite_false]
    simp [essLoop]
    funext k
    have : ¬ (t ≤ k ∧ k < t) := by omega
    simp [this]
  | succ f ih =>
    intro t rho hfuel ht hprev
    by_cases htn : t < n
    · rw [essLoop]
      rw [if_pos (⟨rfl, htn⟩ : false = false ∧ t < n)]
      simp only []
      have hupd_t : Function.update rho t (rhoAt t) t = rhoAt t :=
        Function.update_same t (rhoAt t) rho
      have hupd_ne : ∀ k, k ≠ t → Function.update rho t (rhoAt t) k = rho k :=
        fun k hk => Function.update_noteq hk (rhoAt t) rho
      have hneg : (if t % 2 = 0 then
            (if Function.update rho t (rhoAt t) (t - 1) +
                Function.update rho t (rhoAt t) t < 0 then true else false)
          else false) = fires rhoAt t := by
        by_cases hpar : t % 2 = 0
        · have ht2 : 2 ≤ t := by omega
          have h1 : Function.update rho t (rhoAt t) (t - 1) = rhoAt (t - 1) := by
            rw [hupd_ne (t - 1) (by omega)]
            exact hprev (t - 1) (by omega) (by omega)
          rw [fires, if_pos hpar, h1, hupd_t]
          by_cases hlt : rhoAt (t - 1) + rhoAt t < 0
          · rw [if_pos hlt, if_pos ⟨hpar, hlt⟩]
          · rw [if_neg hlt, if_neg (by tauto)]
        · rw [fires, if_neg hpar, if_neg (by tauto)]
      rw [hneg]
      by_cases hf : fires rhoAt t = true
      · rw [hf, essLoop_stop]
        rw [scanStop]
        simp only [htn, dite_true, if_pos hf, Prod.mk.injEq]
        refine ⟨?_, trivial⟩
        funext k
        by_cases hk : k = t
        · subst hk
          rw [if_pos (by omega), hupd_t]
        · rw [if_neg (by omega), hupd_ne k hk]
      · rw [Bool.not_eq_true] at hf
        rw [hf]
        have hprev' : ∀ k, 1 ≤ k → k < t + 1 → Function.update rho t (rhoAt t) k = rhoAt k := by
          intro k h1 h2
          by_cases hk : k = t
          · subst hk; exact hupd_t
          · rw [hupd_ne k hk]; exact hprev k h1 (by omega)
        rw [ih (t + 1) _ (by omega) (by omega) hprev']
        have hscan : scanStop rhoAt n t = scanStop rhoAt n (t + 1) := by
          rw [scanStop]
          simp only [htn, dite_true]
          rw [if_neg (by rw [hf]; exact Bool.false_ne_true)]
        rw [hscan]
        have hS : t + 1 ≤ scanStop rhoAt n (t + 1) :=
          le_scanStop rhoAt n (n - (t + 1)) (t + 1) le_rfl
        simp only [Prod.mk.injEq]
        refine ⟨?_, trivial⟩
        funext k
        by_cases hk : k = t
        · subst hk
          rw [if_neg (by omega), if_pos ⟨by omega, by omega⟩, hupd_t]
        · by_cases hk2 : t + 1 ≤ k ∧ k < scanStop rhoAt n (t + 1)
          · rw [if_pos hk2, if_pos (by omega)]
          · rw [if_neg hk2, if_neg (by omega), hupd_ne k hk]
    · rw [scanStop]
      simp only [htn, dite_false]
      rw [essLoop]
      rw [if_neg (by exact fun h => htn h.2)]
      simp only [Prod.mk.injEq]
      refine ⟨?_, trivial⟩
      funext k
      rw [if_neg (by omega)]

end Rwmh

namespace Rwmh

/-- Summing a mapped `List.range` agrees with the `Finset.range` sum. -/
lemma list_range_map_sum (f : ℕ → ℚ) (n : ℕ) :
    ((List.range n).map f).sum = ∑ i in Finset.range n, f i := by
  induction n with
  | zero => simp
  | succ k ih => rw [List.range_succ, Finset.sum_range_succ]; simp [ih]

/-- In exact arithmetic the nested-loop and the vectorised variance
estimators compute the same value. -/
lemma gelman_rubin_eq_my (x : ℕ → ℕ → ℚ) (m n : ℕ) :
    gelman_rubin x m n = my_gelman_rubin x m n := by
  unfold gelman_rubin my_gelman_rubin
  rw [list_range_map_sum]

/-- In exact arithmetic the nested-loop and the vectorised variograms
compute the same value at every lag. -/
lemma loop_variogram_eq_my (x : ℕ → ℕ → ℚ) (m n t : ℕ) :
    loop_variogram x m n t = my_variogram x m n t := by
  unfold loop_variogram my_variogram
  congr 1
  refine Finset.sum_congr rfl (fun j _ => ?_)
  rw [Finset.sum_Ico_eq_sum_range]
  refine Finset.sum_congr rfl (fun i _ => ?_)
  rw [Nat.add_sub_cancel_left, Nat.add_comm]

/-- The two per-lag autocorrelation estimates agree. -/
lemma pymc_rhoAt_eq_my (x : ℕ → ℕ → ℚ) (m n : ℕ) :
    pymc_rhoAt x m n = my_rhoAt x m n := by
  funext t
  unfold pymc_rhoAt my_rhoAt
  rw [loop_variogram_eq_my, gelman_rubin_eq_my]

/-- The two scans run through identical states. -/
lemma ESS_state_eq_my (x : ℕ → ℕ → ℚ) (m n : ℕ) :
    ESS_state x m n = my_ESS_state x m n := by
  unfold ESS_state my_ESS_state
  rw [pymc_rhoAt_eq_my]

/-- The two effective-sample-size implementations return the same integer. -/
lemma ESS_eq_my (x : ℕ → ℕ → ℚ) (m n : ℕ) :
    ESS x m n = my_ESS x m n := by
  unfold ESS my_ESS
  rw [ESS_state_eq_my]

/-- Closed form of the scan's final state, from the initial all-ones array. -/
lemma essState_closed (rhoAt : ℕ → ℚ) (n : ℕ) :
    essLoop rhoAt n n (fun _ => 1) 1 false =
      ((fun k => if 1 ≤ k ∧ k < scanStop rhoAt n 1 then rhoAt k else 1),
        scanStop rhoAt n 1) :=
  essLoop_false_eq rhoAt n n 1 (fun _ => 1) (by omega) le_rfl
    (fun k h1 h2 => absurd h2 (by omega))

/-- If the stop condition holds nowhere on `[t, n)`, the scan exhausts the
range and exits with counter `n`. -/
lemma scanStop_of_no_fire (rhoAt : ℕ → ℚ) (n : ℕ) :
    ∀ d t, n - t ≤ d → t ≤ n → (∀ s, t ≤ s → s < n → fires rhoAt s = false) →
      scanStop rhoAt n t = n := by
  intro d
  induction d with
  | zero =>
    intro t h htn _
    rw [scanStop]
    have hnt : ¬ t < n := by omega
    simp [hnt]
    omega
  | succ d ih =>
    intro t h htn hnof
    rw [scanStop]
    by_cases hlt : t < n
    · simp only [hlt, dite_true]
      rw [if_neg (by rw [hnof t le_rfl hlt]; exact Bool.false_ne_true)]
      exact ih (t + 1) (by omega) (by omega) (fun s hs => hnof s (by omega))
    · simp [hlt]
      omega

/-- If the stop condition first holds at lag `s` of `[t, n)`, the scan exits
with counter `s + 1`. -/
lemma scanStop_of_first_fire (rhoAt : ℕ → ℚ) (n : ℕ) :
    ∀ d t s, n - t ≤ d → t ≤ s → s < n → fires rhoAt s = true →
      (∀ u, t ≤ u → u < s → fires rhoAt u = false) →
      scanStop rhoAt n t = s + 1 := by
  intro d
  induction d with
  | zero =>
    intro t s h hts hsn _ _
    omega
  | succ d ih =>
    intro t s h hts hsn hf hnof
    rw [scanStop]
    have hlt : t < n := by omega
    simp only [hlt, dite_true]
    by_cases hts' : t = s
    · subst hts'
      rw [if_pos hf]
    · rw [if_neg (by rw [hnof t le_rfl (by omega)]; exact Bool.false_ne_true)]
      exact ih (t + 1) s (by omega) (by omega) hsn hf (fun u hu => hnof u (by omega))

end Rwmh

namespace Rwmh

/-- The scan's final counter is the specification-level stop index. -/
lemma essState_snd (rhoAt : ℕ → ℚ) (n : ℕ) :
    (essLoop rhoAt n n (fun _ => 1) 1 false).2 = scanStop rhoAt n 1 := by
  rw [essState_closed]

/-- Below the final counter, the scan's array holds the per-lag estimates. -/
lemma essState_fst (rhoAt : ℕ → ℚ) (n k : ℕ) (h1 : 1 ≤ k)
    (h2 : k < scanStop rhoAt n 1) :
    (essLoop rhoAt n n (fun _ => 1) 1 false).1 k = rhoAt k := by
  rw [essState_closed]
  exact if_pos ⟨h1, h2⟩

/-- The final sum of the vectorised implementation ranges over the per-lag
estimates `rho[1], …, rho[t_stop - 1]`. -/
lemma my_ESS_formula_aux (x : ℕ → ℕ → ℚ) (m n : ℕ) :
    my_ESS x m n =
      truncInt (((m : ℚ) * n) /
        (1 + 2 * ∑ k in Finset.Ico 1 (my_ESS_state x m n).2, my_rhoAt x m n k)) := by
  unfold my_ESS
  have hsum : ∑ k in Finset.Ico 1 (my_ESS_state x m n).2, (my_ESS_state x m n).1 k
      = ∑ k in Finset.Ico 1 (my_ESS_state x m n).2, my_rhoAt x m n k := by
    refine Finset.sum_congr rfl (fun k hk => ?_)
    rw [Finset.mem_Ico] at hk
    have hsnd : (my_ESS_state x m n).2 = scanStop (my_rhoAt x m n) n 1 :=
      essState_snd (my_rhoAt x m n) n
    exact essState_fst (my_rhoAt x m n) n k hk.1 (hsnd ▸ hk.2)
  rw [hsum]

/-- The final sum of the nested-loop implementation ranges over the per-lag
estimates `rho[1], …, rho[t_stop - 1]`. -/
lemma ESS_formula_aux (x : ℕ → ℕ → ℚ) (m n : ℕ) :
    ESS x m n =
      truncInt (((m : ℚ) * n) /
        (1 + 2 * ∑ k in Finset.Ico 1 (ESS_state x m n).2, pymc_rhoAt x m n k)) := by
  unfold ESS
  have hsum : ∑ k in Finset.Ico 1 (ESS_state x m n).2, (ESS_state x m n).1 k
      = ∑ k in Finset.Ico 1 (ESS_state x m n).2, pymc_rhoAt x m n k := by
    refine Finset.sum_congr rfl (fun k hk => ?_)
    rw [Finset.mem_Ico] at hk
    have hsnd : (ESS_state x m n).2 = scanStop (pymc_rhoAt x m n) n 1 :=
      essState_snd (pymc_rhoAt x m n) n
    exact essState_fst (pymc_rhoAt x m n) n k hk.1 (hsnd ▸ hk.2)
  rw [hsum]

/-! ### Shift invariance -/

/-- Adding a constant to every entry shifts each row mean by that constant. -/
lemma rowMean_shift (x : ℕ → ℕ → ℚ) (c : ℚ) (n j : ℕ) (hn : (n : ℚ) ≠ 0) :
    rowMean (fun j i => x j i + c) n j = rowMean x n j + c := by
  unfold rowMean
  rw [Finset.sum_add_distrib, Finset.sum_const, Finset.card_range, nsmul_eq_mul]
  field_simp
  ring

/-- Adding a constant to every entry shifts the grand mean by that constant. -/
lemma grandMean_shift (x : ℕ → ℕ → ℚ) (c : ℚ) (m n : ℕ)
    (hm : (m : ℚ) ≠ 0) (hn : (n : ℚ) ≠ 0) :
    grandMean (fun j i => x j i + c) m n = grandMean x m n + c := by
  unfold grandMean
  have hrow : ∀ j, ∑ i in Finset.range n, (x j i + c)
      = (∑ i in Finset.range n, x j i) + (n : ℚ) * c := by
    intro j
    rw [Finset.sum_add_distrib, Finset.sum_const, Finset.card_range, nsmul_eq_mul]
  rw [Finset.sum_congr rfl (fun j _ => hrow j), Finset.sum_add_distrib,
    Finset.sum_const, Finset.card_range, nsmul_eq_mul]
  field_simp
  ring

/-- The pooled variance estimate is invariant under shifting every entry. -/
lemma my_gelman_rubin_shift (x : ℕ → ℕ → ℚ) (c : ℚ) (m n : ℕ)
    (hm : (m : ℚ) ≠ 0) (hn : (n : ℚ) ≠ 0) :
    my_gelman_rubin (fun j i => x j i + c) m n = my_gelman_rubin x m n := by
  unfold my_gelman_rubin
  have hB : ∀ j ∈ Finset.range m,
      (rowMean (fun j i => x j i + c) n j - grandMean (fun j i => x j i + c) m n) ^ 2
        = (rowMean x n j - grandMean x m n) ^ 2 := by
    intro j _
    rw [rowMean_shift x c n j hn, grandMean_shift x c m n hm hn]
    ring
  have hW : ∀ j ∈ Finset.range m, ∀ i ∈ Finset.range n,
      ((fun j i => x j i + c) j i - rowMean (fun j i => x j i + c) n j) ^ 2
        = (x j i - rowMean x n j) ^ 2 := by
    intro j _ i _
    rw [rowMean_shift x c n j hn]
    ring
  rw [Finset.sum_congr rfl hB,
    Finset.sum_congr rfl (fun j hj => Finset.sum_congr rfl (fun i hi => hW j hj i hi))]

/-- The variogram is invariant under shifting every entry. -/
lemma my_variogram_shift (x : ℕ → ℕ → ℚ) (c : ℚ) (m n t : ℕ) :
    my_variogram (fun j i => x j i + c) m n t = my_variogram x m n t := by
  unfold my_variogram
  congr 1
  refine Finset.sum_congr rfl (fun j _ => Finset.sum_congr rfl (fun i _ => ?_))
  ring

/-- Every per-lag autocorrelation estimate is invariant under shifting. -/
lemma my_rhoAt_shift (x : ℕ → ℕ → ℚ) (c : ℚ) (m n : ℕ)
    (hm : (m : ℚ) ≠ 0) (hn : (n : ℚ) ≠ 0) :
    my_rhoAt (fun j i => x j i + c) m n = my_rhoAt x m n := by
  funext t
  unfold my_rhoAt
  rw [my_variogram_shift x c m n t, my_gelman_rubin_shift x c m n hm hn]

/-- The whole scan state is invariant under shifting. -/
lemma my_ESS_state_shift (x : ℕ → ℕ → ℚ) (c : ℚ) (m n : ℕ)
    (hm : (m : ℚ) ≠ 0) (hn : (n : ℚ) ≠ 0) :
    my_ESS_state (fun j i => x j i + c) m n = my_ESS_state x m n := by
  unfold my_ESS_state
  rw [my_rhoAt_shift x c m n hm hn]

/-- The vectorised ESS is invariant under shifting. -/
lemma my_ESS_shift (x : ℕ → ℕ → ℚ) (c : ℚ) (m n : ℕ)
    (hm : (m : ℚ) ≠ 0) (hn : (n : ℚ) ≠ 0) :
    my_ESS (fun j i => x j i + c) m n = my_ESS x m n := by
  unfold my_ESS
  rw [my_ESS_state_shift x c m n hm hn]

end Rwmh

namespace Rwmh

/-- Unfolding of the stop-condition test. -/
lemma fires_eq_true_iff (rhoAt : ℕ → ℚ) (t : ℕ) :
    fires rhoAt t = true ↔ t % 2 = 0 ∧ rhoAt (t - 1) + rhoAt t < 0 := by
  unfold fires
  split <;> simp_all

/-- An odd lag never trips the stop condition. -/
lemma fires_odd (rhoAt : ℕ → ℚ) (t : ℕ) (h : t % 2 = 1) : fires rhoAt t = false := by
  unfold fires
  rw [if_neg (fun hc => by omega)]

/-- With at least two iterations the scan always gets past lag 1. -/
lemma two_le_scanStop (rhoAt : ℕ → ℚ) (n : ℕ) (hn : 2 ≤ n) :
    2 ≤ scanStop rhoAt n 1 := by
  rw [scanStop]
  have h1 : 1 < n := by omega
  simp only [h1, dite_true]
  rw [if_neg (by rw [fires_odd rhoAt 1 rfl]; exact Bool.false_ne_true)]
  exact le_scanStop rhoAt n (n - 2) 2 le_rfl

end Rwmh

namespace Rwmh

/-- Claim C1: for every chain matrix of shape `(m, n)` with `m ≥ 2`, `n ≥ 2`
and (necessarily finite, rational) entries, the nested-loop `ESS` and the
vectorised `my_ESS` terminate their autocorrelation scans at the same
truncation index and return the same integer result. -/
theorem ess_implementations_agree (x : ℕ → ℕ → ℚ) (m n : ℕ)
    (hm : 2 ≤ m) (hn : 2 ≤ n) :
    (ESS_state x m n).2 = (my_ESS_state x m n).2 ∧ ESS x m n = my_ESS x m n :=
  ⟨by rw [ESS_state_eq_my], ESS_eq_my x m n⟩

/-- Chain matrix `[[1, 3], [2, 0]]` used as the C1 witness input. -/
def c1mat : ℕ → ℕ → ℚ := fun j i =>
  if j = 0 then (if i = 0 then 1 else 3) else (if i = 0 then 2 else 0)

/-- Witness for C1 at the concrete matrix `[[1, 3], [2, 0]]`. -/
theorem ess_implementations_agree_witness :
    (2 ≤ 2 ∧ 2 ≤ 2) ∧
      ((ESS_state c1mat 2 2).2 = (my_ESS_state c1mat 2 2).2 ∧
        ESS c1mat 2 2 = my_ESS c1mat 2 2) :=
  ⟨⟨le_rfl, le_rfl⟩, ess_implementations_agree c1mat 2 2 le_rfl le_rfl⟩

/-- Claim C2: for every chain matrix of shape `(m, n)` with `m ≥ 2` and
`n ≥ 2`, the nested-loop `gelman_rubin` and the vectorised
`my_gelman_rubin` are numerically identical in exact arithmetic. -/
theorem gelman_rubin_implementations_agree (x : ℕ → ℕ → ℚ) (m n : ℕ)
    (hm : 2 ≤ m) (hn : 2 ≤ n) :
    gelman_rubin x m n = my_gelman_rubin x m n :=
  gelman_rubin_eq_my x m n

/-- Chain matrix `[[0, 4], [1, 5]]` used as the C2 witness input. -/
def c2mat : ℕ → ℕ → ℚ := fun j i =>
  if j = 0 then (if i = 0 then 0 else 4) else (if i = 0 then 1 else 5)

/-- Witness for C2 at the concrete matrix `[[0, 4], [1, 5]]`. -/
theorem gelman_rubin_implementations_agree_witness :
    (2 ≤ 2 ∧ 2 ≤ 2) ∧ gelman_rubin c2mat 2 2 = my_gelman_rubin c2mat 2 2 :=
  ⟨⟨le_rfl, le_rfl⟩, gelman_rubin_implementations_agree c2mat 2 2 le_rfl le_rfl⟩

/-- Claim C3: for every chain matrix of shape `(m, n)` with `m ≥ 2` and
`n ≥ 2`, `gelman_rubin` returns `s2 = W * (n-1)/n + B_over_n`, where `W` is
the pooled sum of squared deviations from each chain's own mean divided by
`m * (n-1)`, and `B_over_n` is the sum of squared differences between the
chain means and the grand mean divided by `m - 1`. -/
theorem gelman_rubin_formula (x : ℕ → ℕ → ℚ) (m n : ℕ)
    (hm : 2 ≤ m) (hn : 2 ≤ n) :
    gelman_rubin x m n =
      ((∑ j in Finset.range m, ∑ i in Finset.range n, (x j i - rowMean x n j) ^ 2) /
          ((m : ℚ) * ((n : ℚ) - 1))) * ((n : ℚ) - 1) / (n : ℚ)
        + (∑ j in Finset.range m, (rowMean x n j - grandMean x m n) ^ 2) /
            ((m : ℚ) - 1) := by
  rw [gelman_rubin_eq_my]
  rfl

/-- Chain matrix `[[2, 6], [0, 1]]` used as the C3 witness input. -/
def c3mat : ℕ → ℕ → ℚ := fun j i =>
  if j = 0 then (if i = 0 then 2 else 6) else (if i = 0 then 0 else 1)

/-- Witness for C3 at the concrete matrix `[[2, 6], [0, 1]]`. -/
theorem gelman_rubin_formula_witness :
    (2 ≤ 2 ∧ 2 ≤ 2) ∧
      gelman_rubin c3mat 2 2 =
        ((∑ j in Finset.range 2, ∑ i in Finset.range 2,
            (c3mat j i - rowMean c3mat 2 j) ^ 2) / ((2 : ℚ) * ((2 : ℚ) - 1)))
            * ((2 : ℚ) - 1) / (2 : ℚ)
          + (∑ j in Finset.range 2, (rowMean c3mat 2 j - grandMean c3mat 2 2) ^ 2) /
              ((2 : ℚ) - 1) :=
  ⟨⟨le_rfl, le_rfl⟩, by
    have h := gelman_rubin_formula c3mat 2 2 le_rfl le_rfl
    simpa using h⟩

/-- Claim C4: for every chain matrix, each ESS implementation returns
`m * n / (1 + 2 * Σ rho[1:t_stop])` truncated toward zero, where
`rho[t] = 1 - variogram(t) / (2 * post_var)` for each computed lag. -/
theorem ess_truncation_formula (x : ℕ → ℕ → ℚ) (m n : ℕ) :
    my_ESS x m n =
      truncInt (((m : ℚ) * n) /
        (1 + 2 * ∑ k in Finset.Ico 1 (my_ESS_state x m n).2, my_rhoAt x m n k)) ∧
    ESS x m n =
      truncInt (((m : ℚ) * n) /
        (1 + 2 * ∑ k in Finset.Ico 1 (ESS_state x m n).2, pymc_rhoAt x m n k)) :=
  ⟨my_ESS_formula_aux x m n, ESS_formula_aux x m n⟩

end Rwmh

namespace Rwmh

/-- Chain matrix `[[0, 2, 1], [2, 0, 1]]`: its scan trips the stop condition
at lag 2 (with `rho[1] = -7/8`, `rho[2] = 1/4`), exiting with counter 3. -/
def c5mat : ℕ → ℕ → ℚ := fun j i =>
  if j = 0 then (if i = 0 then 0 else if i = 1 then 2 else 1)
  else (if i = 0 then 2 else if i = 1 then 0 else 1)

/-- Claim C5 counterexample: on `[[0, 2, 1], [2, 0, 1]]` the stop condition
fires at the last computed lag, yet the returned value differs both from the
value obtained by dropping only the firing lag from the final sum and from
the value obtained by dropping the whole terminating pair: the sum
`rho[1:t]` taken by the code includes the lag at which truncation occurred. -/
theorem ess_sum_excludes_fired_lag_counterexample :
    fires (my_rhoAt c5mat 2 3) ((my_ESS_state c5mat 2 3).2 - 1) = true ∧
    my_ESS c5mat 2 3 = -24 ∧
    my_ESS c5mat 2 3 ≠
      truncInt (((2 : ℚ) * 3) /
        (1 + 2 * ∑ k in Finset.Ico 1 ((my_ESS_state c5mat 2 3).2 - 1),
          my_rhoAt c5mat 2 3 k)) ∧
    my_ESS c5mat 2 3 ≠
      truncInt (((2 : ℚ) * 3) /
        (1 + 2 * ∑ k in Finset.Ico 1 ((my_ESS_state c5mat 2 3).2 - 2),
          my_rhoAt c5mat 2 3 k)) := by
  have hT : (my_ESS_state c5mat 2 3).2 = 3 := by
    norm_num [my_ESS_state, essLoop, my_rhoAt, my_variogram, my_gelman_rubin,
      rowMean, grandMean, Finset.sum_range_succ, Function.update, c5mat]
  have hESS : my_ESS c5mat 2 3 = -24 := by
    norm_num [my_ESS, my_ESS_state, essLoop, my_rhoAt, my_variogram, my_gelman_rubin,
      rowMean, grandMean, truncInt, Finset.sum_range_succ, Finset.sum_Ico_eq_sum_range,
      Function.update, c5mat, Int.floor_eq_iff, Int.ceil_eq_iff]
  have hfire : fires (my_rhoAt c5mat 2 3) ((my_ESS_state c5mat 2 3).2 - 1) = true := by
    rw [hT]
    norm_num [fires, my_rhoAt, my_variogram, my_gelman_rubin, rowMean, grandMean,
      Finset.sum_range_succ, c5mat]
  have e1 : truncInt (((2 : ℚ) * 3) /
      (1 + 2 * ∑ k in Finset.Ico 1 ((my_ESS_state c5mat 2 3).2 - 1),
        my_rhoAt c5mat 2 3 k)) = -8 := by
    rw [hT]
    norm_num [my_rhoAt, my_variogram, my_gelman_rubin, rowMean, grandMean, truncInt,
      Finset.sum_range_succ, Finset.sum_Ico_eq_sum_range, c5mat,
      Int.floor_eq_iff, Int.ceil_eq_iff]
  have e2 : truncInt (((2 : ℚ) * 3) /
      (1 + 2 * ∑ k in Finset.Ico 1 ((my_ESS_state c5mat 2 3).2 - 2),
        my_rhoAt c5mat 2 3 k)) = 6 := by
    rw [hT]
    norm_num [my_rhoAt, my_variogram, my_gelman_rubin, rowMean, grandMean, truncInt,
      Finset.sum_range_succ, Finset.sum_Ico_eq_sum_range, c5mat,
      Int.floor_eq_iff, Int.ceil_eq_iff]
  refine ⟨hfire, hESS, ?_, ?_⟩
  · rw [hESS, e1]
    decide
  · rw [hESS, e2]
    decide

/-- Claim C5 as amended: when the stop condition fires at lag `t_f` (so the
scan exits with counter `t_f + 1`), the final ESS sum `rho[1:t_f+1]` runs
over the lags `1, …, t_f` inclusive: it contains both members of the
terminating pair, `t_f - 1` and `t_f`, and excludes only lag 0. -/
theorem ess_sum_includes_fired_lag (x : ℕ → ℕ → ℚ) (m n t_f : ℕ)
    (hn : 2 ≤ n) (hfire : fires (my_rhoAt x m n) t_f = true)
    (hstop : (my_ESS_state x m n).2 = t_f + 1) :
    2 ≤ t_f ∧
    t_f - 1 ∈ Finset.Ico 1 (my_ESS_state x m n).2 ∧
    t_f ∈ Finset.Ico 1 (my_ESS_state x m n).2 ∧
    my_ESS x m n =
      truncInt (((m : ℚ) * n) /
        (1 + 2 * ((∑ k in Finset.Ico 1 (t_f - 1), my_rhoAt x m n k)
          + my_rhoAt x m n (t_f - 1) + my_rhoAt x m n t_f))) := by
  have heven : t_f % 2 = 0 := ((fires_eq_true_iff _ _).mp hfire).1
  have hsnd : (my_ESS_state x m n).2 = scanStop (my_rhoAt x m n) n 1 :=
    essState_snd (my_rhoAt x m n) n
  have h2 : 2 ≤ t_f + 1 := by
    rw [← hstop, hsnd]
    exact two_le_scanStop (my_rhoAt x m n) n hn
  have ht2 : 2 ≤ t_f := by omega
  refine ⟨ht2, ?_, ?_, ?_⟩
  · rw [Finset.mem_Ico]
    omega
  · rw [Finset.mem_Ico]
    omega
  · have hform := my_ESS_formula_aux x m n
    rw [hstop] at hform
    rw [hform]
    have hsplit : ∑ k in Finset.Ico 1 (t_f + 1), my_rhoAt x m n k
        = (∑ k in Finset.Ico 1 (t_f - 1), my_rhoAt x m n k)
          + my_rhoAt x m n (t_f - 1) + my_rhoAt x m n t_f := by
      rw [Finset.sum_Ico_succ_top (by omega : 1 ≤ t_f)]
      have hrw : t_f = (t_f - 1) + 1 := by omega
      rw [hrw, Finset.sum_Ico_succ_top (by omega : 1 ≤ t_f - 1)]
      rw [← hrw]
    rw [hsplit]

end Rwmh

namespace Rwmh

/-- Witness for the amended C5 at `[[0, 2, 1], [2, 0, 1]]`, whose scan fires
at lag 2. -/
theorem ess_sum_includes_fired_lag_witness :
    (2 ≤ 3 ∧ fires (my_rhoAt c5mat 2 3) 2 = true ∧
        (my_ESS_state c5mat 2 3).2 = 2 + 1) ∧
    (2 ≤ 2 ∧
      2 - 1 ∈ Finset.Ico 1 (my_ESS_state c5mat 2 3).2 ∧
      2 ∈ Finset.Ico 1 (my_ESS_state c5mat 2 3).2 ∧
      my_ESS c5mat 2 3 =
        truncInt (((2 : ℚ) * 3) /
          (1 + 2 * ((∑ k in Finset.Ico 1 (2 - 1), my_rhoAt c5mat 2 3 k)
            + my_rhoAt c5mat 2 3 (2 - 1) + my_rhoAt c5mat 2 3 2)))) := by
  have hfire : fires (my_rhoAt c5mat 2 3) 2 = true := by
    norm_num [fires, my_rhoAt, my_variogram, my_gelman_rubin, rowMean, grandMean,
      Finset.sum_range_succ, c5mat]
  have hstop : (my_ESS_state c5mat 2 3).2 = 2 + 1 := by
    norm_num [my_ESS_state, essLoop, my_rhoAt, my_variogram, my_gelman_rubin,
      rowMean, grandMean, Finset.sum_range_succ, Function.update, c5mat]
  exact ⟨⟨by norm_num, hfire, hstop⟩,
    ess_sum_includes_fired_lag c5mat 2 3 2 (by norm_num) hfire hstop⟩

/-- Claim C6: in both ESS implementations the stop condition is evaluated
only at even lags, fires exactly when `rho[t-1] + rho[t] < 0`, and when it
never fires the scan computes `rho[t]` for every lag `1, …, n-1` and exits
with counter `n`. -/
theorem ess_stop_condition (x : ℕ → ℕ → ℚ) (m n : ℕ) (hn : 2 ≤ n) :
    ((∀ t, 2 ≤ t → t < n → t % 2 = 0 →
        0 ≤ my_rhoAt x m n (t - 1) + my_rhoAt x m n t) →
      (my_ESS_state x m n).2 = n ∧ (ESS_state x m n).2 = n ∧
        ∀ t, 1 ≤ t → t < n → (my_ESS_state x m n).1 t = my_rhoAt x m n t) ∧
    (∀ t_f, 2 ≤ t_f → t_f < n → t_f % 2 = 0 →
        my_rhoAt x m n (t_f - 1) + my_rhoAt x m n t_f < 0 →
        (∀ t, 2 ≤ t → t < t_f → t % 2 = 0 →
          0 ≤ my_rhoAt x m n (t - 1) + my_rhoAt x m n t) →
      (my_ESS_state x m n).2 = t_f + 1 ∧ (ESS_state x m n).2 = t_f + 1) := by
  have hsnd : (my_ESS_state x m n).2 = scanStop (my_rhoAt x m n) n 1 :=
    essState_snd (my_rhoAt x m n) n
  have hsnd' : (ESS_state x m n).2 = (my_ESS_state x m n).2 := by
    rw [ESS_state_eq_my]
  constructor
  · intro hno
    have hnof : ∀ s, 1 ≤ s → s < n → fires (my_rhoAt x m n) s = false := by
      intro s h1 h2
      rcases Nat.even_or_odd s with he | ho
      · have hs2 : s % 2 = 0 := Nat.even_iff.mp he
        have hs2' : 2 ≤ s := by omega
        rw [fires, if_neg (fun hc => absurd hc.2 (not_lt.mpr (hno s hs2' h2 hs2)))]
      · exact fires_odd (my_rhoAt x m n) s (Nat.odd_iff.mp ho)
    have hscan : scanStop (my_rhoAt x m n) n 1 = n :=
      scanStop_of_no_fire (my_rhoAt x m n) n (n - 1) 1 (by omega) (by omega)
        (fun s hs => hnof s hs)
    refine ⟨by rw [hsnd, hscan], by rw [hsnd', hsnd, hscan], ?_⟩
    intro t h1 h2
    exact essState_fst (my_rhoAt x m n) n t h1 (by rw [hscan]; exact h2)
  · intro t_f h2f hfn hpar hneg hno
    have hf : fires (my_rhoAt x m n) t_f = true :=
      (fires_eq_true_iff (my_rhoAt x m n) t_f).mpr ⟨hpar, hneg⟩
    have hnof : ∀ u, 1 ≤ u → u < t_f → fires (my_rhoAt x m n) u = false := by
      intro u h1 h2
      rcases Nat.even_or_odd u with he | ho
      · have hu2 : u % 2 = 0 := Nat.even_iff.mp he
        have hu2' : 2 ≤ u := by omega
        rw [fires, if_neg (fun hc => absurd hc.2 (not_lt.mpr (hno u hu2' h2 hu2)))]
      · exact fires_odd (my_rhoAt x m n) u (Nat.odd_iff.mp ho)
    have hscan : scanStop (my_rhoAt x m n) n 1 = t_f + 1 :=
      scanStop_of_first_fire (my_rhoAt x m n) n (n - 1) 1 t_f (by omega) (by omega)
        hfn hf (fun u hu => hnof u hu)
    exact ⟨by rw [hsnd, hscan], by rw [hsnd', hsnd, hscan]⟩

/-- Chain matrix `[[0, 1, 0], [1, 0, 1]]`, whose scan never fires
(`rho[1] = -4/5`, `rho[2] = 1`, pair sum `1/5 ≥ 0`). -/
def c6mat : ℕ → ℕ → ℚ := fun j i =>
  if j = 0 then (if i = 0 then 0 else if i = 1 then 1 else 0)
  else (if i = 0 then 1 else if i = 1 then 0 else 1)

/-- Witness for C6 at `[[0, 1, 0], [1, 0, 1]]`: the scan never fires and
both implementations exhaust all lags, exiting with counter `n = 3`. -/
theorem ess_stop_condition_witness :
    (2 ≤ 3) ∧ ((my_ESS_state c6mat 2 3).2 = 3 ∧ (ESS_state c6mat 2 3).2 = 3) := by
  have hno : ∀ t, 2 ≤ t → t < 3 → t % 2 = 0 →
      0 ≤ my_rhoAt c6mat 2 3 (t - 1) + my_rhoAt c6mat 2 3 t := by
    intro t h1 h2 h3
    have ht : t = 2 := by omega
    subst ht
    norm_num [my_rhoAt, my_variogram, my_gelman_rubin, rowMean, grandMean,
      Finset.sum_range_succ, c6mat]
  have h := (ess_stop_condition c6mat 2 3 (by norm_num)).1 hno
  exact ⟨by norm_num, h.1, h.2.1⟩

end Rwmh

namespace Rwmh

/-- With exactly two iterations the scan exits with counter 2 after a single
pass (lag 1 is odd, so the stop condition is not even consulted). -/
lemma scanStop_two (rhoAt : ℕ → ℚ) : scanStop rhoAt 2 1 = 2 := by
  rw [scanStop]
  simp only [show (1 : ℕ) < 2 from by omega, dite_true]
  rw [if_neg (by rw [fires_odd rhoAt 1 rfl]; exact Bool.false_ne_true)]
  rw [scanStop]
  simp

/-- Chain matrix `[[0, 1], [0, -1]]` used against claim C7: here
`rho[1] = 1/3` and the n = 2 ESS is `int(4 / (5/3)) = 2 ≠ m*n = 4`. -/
def c7mat : ℕ → ℕ → ℚ := fun j i =>
  if j = 0 then (if i = 0 then 0 else 1) else (if i = 0 then 0 else -1)

/-- Claim C7 counterexample: at `n = 2` the loop body runs (once), the lag-1
autocorrelation correction is applied, and the result is not `m*n`. -/
theorem ess_n2_degenerate_counterexample :
    my_ESS c7mat 2 2 = 2 ∧ ESS c7mat 2 2 = 2 ∧ ((2 : ℤ) ≠ (2 * 2 : ℤ)) := by
  refine ⟨?_, ?_, by decide⟩ <;>
    norm_num [my_ESS, my_ESS_state, ESS, ESS_state, essLoop, my_rhoAt, pymc_rhoAt,
      my_variogram, loop_variogram, my_gelman_rubin, gelman_rubin, rowMean, grandMean,
      truncInt, Finset.sum_range_succ, Finset.sum_Ico_eq_sum_range, List.range_succ,
      Function.update, c7mat, Int.floor_eq_iff, Int.ceil_eq_iff]

/-- Claim C7 as amended: for any chain matrix with `n = 2` the scan body
executes exactly once (both implementations exit with counter 2, so no
exception and a well-defined result), and the ESS equals
`int(m*n / (1 + 2*rho[1]))` — the lag-1 correction is applied, so the
result need not degenerate to `m*n`. -/
theorem ess_n2_single_iteration (x : ℕ → ℕ → ℚ) (m : ℕ) :
    (my_ESS_state x m 2).2 = 2 ∧ (ESS_state x m 2).2 = 2 ∧
    my_ESS x m 2 = truncInt (((m : ℚ) * 2) / (1 + 2 * my_rhoAt x m 2 1)) ∧
    ESS x m 2 = truncInt (((m : ℚ) * 2) / (1 + 2 * pymc_rhoAt x m 2 1)) := by
  have h1 : (my_ESS_state x m 2).2 = 2 := by
    unfold my_ESS_state
    rw [essState_snd, scanStop_two]
  have h2 : (ESS_state x m 2).2 = 2 := by
    unfold ESS_state
    rw [essState_snd, scanStop_two]
  refine ⟨h1, h2, ?_, ?_⟩
  · have h := my_ESS_formula_aux x m 2
    rw [h1] at h
    rw [h, Finset.sum_Ico_eq_sum_range]
    norm_num
  · have h := ESS_formula_aux x m 2
    rw [h2] at h
    rw [h, Finset.sum_Ico_eq_sum_range]
    norm_num

/-- Truncation toward zero of a non-negative quotient is bounded by any
integer bound on the quotient. -/
lemma truncInt_le_of (q : ℚ) (B : ℤ) (hq : 0 ≤ q) (hB : q ≤ (B : ℚ)) :
    truncInt q ≤ B := by
  rw [truncInt, if_pos hq]
  calc ⌊q⌋ ≤ ⌊(B : ℚ)⌋ := Int.floor_le_floor hB
  _ = B := Int.floor_intCast B

/-- Chain matrix `[[0, 1], [1/4, 0]]` used against claim C8: here
`rho[1] = -4/13`, the final denominator is `5/13 ∈ (0, 1)`, and the ESS is
`int(4 / (5/13)) = 10 > m*n = 4`. -/
def c8mat : ℕ → ℕ → ℚ := fun j i =>
  if j = 0 then (if i = 0 then 0 else 1) else (if i = 0 then 1/4 else 0)

/-- Claim C8 counterexample: a valid 2 × 2 chain matrix for which both ESS
implementations return 10, exceeding the raw sample count `m*n = 4`. -/
theorem ess_le_raw_count_counterexample :
    my_ESS c8mat 2 2 = 10 ∧ ESS c8mat 2 2 = 10 ∧ ¬((10 : ℤ) ≤ 2 * 2) := by
  refine ⟨?_, ?_, by decide⟩ <;>
    norm_num [my_ESS, my_ESS_state, ESS, ESS_state, essLoop, my_rhoAt, pymc_rhoAt,
      my_variogram, loop_variogram, my_gelman_rubin, gelman_rubin, rowMean, grandMean,
      truncInt, Finset.sum_range_succ, Finset.sum_Ico_eq_sum_range, List.range_succ,
      Function.update, c8mat, Int.floor_eq_iff, Int.ceil_eq_iff]

/-- Claim C8 as amended: the returned ESS is bounded by the raw sample count
`m*n` whenever the final autocorrelation sum `Σ rho[1:t_stop]` is
non-negative (so the denominator is at least 1).  The code has no
clamped-denominator policy: when that sum is negative the bound can fail,
as the counterexample shows. -/
theorem ess_le_raw_count_of_nonneg_sum (x : ℕ → ℕ → ℚ) (m n : ℕ)
    (h1 : 0 ≤ ∑ k in Finset.Ico 1 (my_ESS_state x m n).2, (my_ESS_state x m n).1 k) :
    my_ESS x m n ≤ (m : ℤ) * n ∧ ESS x m n ≤ (m : ℤ) * n := by
  have hd : (1 : ℚ) ≤ 1 + 2 * ∑ k in Finset.Ico 1 (my_ESS_state x m n).2,
      (my_ESS_state x m n).1 k := by linarith
  have hq0 : 0 ≤ ((m : ℚ) * n) /
      (1 + 2 * ∑ k in Finset.Ico 1 (my_ESS_state x m n).2, (my_ESS_state x m n).1 k) :=
    div_nonneg (by positivity) (by linarith)
  have hqle : ((m : ℚ) * n) /
      (1 + 2 * ∑ k in Finset.Ico 1 (my_ESS_state x m n).2, (my_ESS_state x m n).1 k)
        ≤ (m : ℚ) * n :=
    div_le_self (by positivity) hd
  have hmain : my_ESS x m n ≤ (m : ℤ) * n :=
    truncInt_le_of _ ((m : ℤ) * n) hq0 (by push_cast; exact hqle)
  exact ⟨hmain, by rw [ESS_eq_my]; exact hmain⟩

/-- Chain matrix `[[0, 1], [0, 0]]` used as the C8 witness input: here
`rho[1] = 0`, so the final sum is 0 and the denominator is exactly 1. -/
def c8wmat : ℕ → ℕ → ℚ := fun j i =>
  if j = 0 then (if i = 0 then 0 else 1) else 0

/-- Witness for the amended C8 at `[[0, 1], [0, 0]]`. -/
theorem ess_le_raw_count_of_nonneg_sum_witness :
    (0 ≤ ∑ k in Finset.Ico 1 (my_ESS_state c8wmat 2 2).2, (my_ESS_state c8wmat 2 2).1 k) ∧
    (my_ESS c8wmat 2 2 ≤ (2 : ℤ) * 2 ∧ ESS c8wmat 2 2 ≤ (2 : ℤ) * 2) := by
  have h1 : 0 ≤ ∑ k in Finset.Ico 1 (my_ESS_state c8wmat 2 2).2,
      (my_ESS_state c8wmat 2 2).1 k := by
    norm_num [my_ESS_state, essLoop, my_rhoAt, my_variogram, my_gelman_rubin,
      rowMean, grandMean, Finset.sum_range_succ, Finset.sum_Ico_eq_sum_range,
      Function.update, c8wmat]
  exact ⟨h1, ess_le_raw_count_of_nonneg_sum c8wmat 2 2 h1⟩

/-- Chain matrix `[[0, 1], [1, 0]]` used for claim C9: here `rho[1] = -1`,
making the final denominator `1 + 2*(-1) = -1` negative. -/
def c9mat : ℕ → ℕ → ℚ := fun j i =>
  if j = 0 then (if i = 0 then 0 else 1) else (if i = 0 then 1 else 0)

/-- Claim C9: a valid chain matrix on which the final denominator
`1 + 2 * Σ rho[1:t_stop]` is negative and both ESS implementations return
(without any failure signal) the negative integer `-4`. -/
theorem ess_negative_denominator_silent :
    (1 + 2 * ∑ k in Finset.Ico 1 (my_ESS_state c9mat 2 2).2,
        (my_ESS_state c9mat 2 2).1 k < 0) ∧
    (1 + 2 * ∑ k in Finset.Ico 1 (ESS_state c9mat 2 2).2,
        (ESS_state c9mat 2 2).1 k < 0) ∧
    my_ESS c9mat 2 2 = -4 ∧ ESS c9mat 2 2 = -4 ∧
    my_ESS c9mat 2 2 < 0 ∧ ESS c9mat 2 2 < 0 := by
  have h1 : my_ESS c9mat 2 2 = -4 := by
    norm_num [my_ESS, my_ESS_state, essLoop, my_rhoAt, my_variogram, my_gelman_rubin,
      rowMean, grandMean, truncInt, Finset.sum_range_succ, Finset.sum_Ico_eq_sum_range,
      Function.update, c9mat, Int.floor_eq_iff, Int.ceil_eq_iff]
  have h2 : ESS c9mat 2 2 = -4 := by
    norm_num [ESS, ESS_state, essLoop, pymc_rhoAt, loop_variogram, gelman_rubin,
      rowMean, grandMean, truncInt, Finset.sum_range_succ, Finset.sum_Ico_eq_sum_range,
      List.range_succ, Function.update, c9mat, Int.floor_eq_iff, Int.ceil_eq_iff]
  refine ⟨?_, ?_, h1, h2, by rw [h1]; decide, by rw [h2]; decide⟩
  · norm_num [my_ESS_state, essLoop, my_rhoAt, my_variogram, my_gelman_rubin,
      rowMean, grandMean, Finset.sum_range_succ, Finset.sum_Ico_eq_sum_range,
      Function.update, c9mat]
  · norm_num [ESS_state, essLoop, pymc_rhoAt, loop_variogram, gelman_rubin,
      rowMean, grandMean, Finset.sum_range_succ, Finset.sum_Ico_eq_sum_range,
      List.range_succ, Function.update, c9mat]

/-- Claim C10: adding the same constant to every entry of a valid chain
matrix leaves both ESS results unchanged, in exact arithmetic. -/
theorem ess_shift_invariant (x : ℕ → ℕ → ℚ) (c : ℚ) (m n : ℕ)
    (hm : 2 ≤ m) (hn : 2 ≤ n) :
    my_ESS (fun j i => x j i + c) m n = my_ESS x m n ∧
    ESS (fun j i => x j i + c) m n = ESS x m n := by
  have hm' : (m : ℚ) ≠ 0 := Nat.cast_ne_zero.mpr (by omega)
  have hn' : (n : ℚ) ≠ 0 := Nat.cast_ne_zero.mpr (by omega)
  refine ⟨my_ESS_shift x c m n hm' hn', ?_⟩
  rw [ESS_eq_my, ESS_eq_my, my_ESS_shift x c m n hm' hn']

/-- Chain matrix `[[1, 2], [3, 5]]` used as the C10 witness input. -/
def c10mat : ℕ → ℕ → ℚ := fun j i =>
  if j = 0 then (if i = 0 then 1 else 2) else (if i = 0 then 3 else 5)

/-- Witness for C10 at `[[1, 2], [3, 5]]` with shift `c = 7`. -/
theorem ess_shift_invariant_witness :
    (2 ≤ 2 ∧ 2 ≤ 2) ∧
      (my_ESS (fun j i => c10mat j i + 7) 2 2 = my_ESS c10mat 2 2 ∧
        ESS (fun j i => c10mat j i + 7) 2 2 = ESS c10mat 2 2) :=
  ⟨⟨le_rfl, le_rfl⟩, ess_shift_invariant c10mat 7 2 2 le_rfl le_rfl⟩

end Rwmh
